import Mathlib

/-!
Verification of the QR-decomposition exercise (`Homework1.ipynb`, Question 3).

The notebook implements `qr_decomposition` in full; the three helper functions
`normalize_col`, `proj_a2b` and `orthogonalize` are declared in the notebook
with docstrings but `pass` bodies, so their bodies are modelled from the
design specification.  All arithmetic is modelled exactly over `ℝ`
("exact arithmetic"); the matrices of the notebook are `numpy` arrays of
shape `(m, n)`, modelled as `Matrix (Fin m) (Fin n) ℝ`.  The driver demands at
least one column (it indexes `A[:, 0]`), so square inputs are modelled with
size `m + 1`.
-/

namespace HW1

open scoped RealInnerProductSpace

/-- The dot product `np.dot(a, b)` of two equal-length vectors. -/
def dot {n : ℕ} (a b : Fin n → ℝ) : ℝ := ∑ i, a i * b i

/-- The Euclidean norm `np.linalg.norm(x)` of a vector, `sqrt (Σ xᵢ²)`. -/
noncomputable def norm_col {n : ℕ} (x : Fin n → ℝ) : ℝ := Real.sqrt (dot x x)

/-- Modelled from the spec: the notebook declares `normalize_col` with a
docstring and a `pass` body only.  Per the spec, the output is the input
divided elementwise by its Euclidean norm `‖x‖ = sqrt (Σ xᵢ²)`. -/
noncomputable def normalize_col {n : ℕ} (x : Fin n → ℝ) : Fin n → ℝ :=
  fun i => x i / norm_col x

/-- Modelled from the spec: the notebook declares `proj_a2b` with a
docstring and a `pass` body only.  Per the spec, the output is the
orthogonal projection of `a` onto `b`, `(⟨a,b⟩ / ⟨b,b⟩) · b`. -/
noncomputable def proj_a2b {n : ℕ} (a b : Fin n → ℝ) : Fin n → ℝ :=
  fun i => (dot a b / dot b b) * b i

/-- Column `j` of a matrix, `U[:, j]`. -/
def col {m n : ℕ} (U : Matrix (Fin m) (Fin n) ℝ) (j : Fin n) : Fin m → ℝ :=
  fun i => U i j

/-- Modelled from the spec: the notebook declares `orthogonalize` with a
docstring and a `pass` body only.  Per the spec, it replaces column `n` of
`U` with `U[:,n] − Σ_{j=0}^{n-1} proj_a2b (U[:,n]) (U[:,j])`, leaving all
other columns unchanged. -/
noncomputable def orthogonalize {m : ℕ} (U : Matrix (Fin m) (Fin m) ℝ) (n : Fin m) :
    Matrix (Fin m) (Fin m) ℝ :=
  Matrix.updateColumn U n
    (fun i => U i n - ∑ j ∈ Finset.Iio n, proj_a2b (col U n) (col U j) i)

/-- One iteration of the loop body of `qr_decomposition`:
`Q = orthogonalize(Q, i); Q[:, i] = normalize_col(Q[:, i])`. -/
noncomputable def qr_step {m : ℕ} (Q : Matrix (Fin m) (Fin m) ℝ) (i : Fin m) :
    Matrix (Fin m) (Fin m) ℝ :=
  Matrix.updateColumn (orthogonalize Q i) i (normalize_col (col (orthogonalize Q i) i))

/-- The loop `for i in range(1, m+1): ...` of `qr_decomposition`, run for the
first `k` iterations (`i = 1, …, k`); the guard mirrors the bound of the
`range`. -/
noncomputable def qr_loop {m : ℕ} (Q : Matrix (Fin (m + 1)) (Fin (m + 1)) ℝ) :
    ℕ → Matrix (Fin (m + 1)) (Fin (m + 1)) ℝ
  | 0 => Q
  | k + 1 =>
      if h : k + 1 < m + 1 then qr_step (qr_loop Q k) ⟨k + 1, h⟩ else qr_loop Q k

/-- The working matrix after `Q = np.copy(A); Q[:, 0] = normalize_col(A[:, 0])`. -/
noncomputable def qr_init {m : ℕ} (A : Matrix (Fin (m + 1)) (Fin (m + 1)) ℝ) :
    Matrix (Fin (m + 1)) (Fin (m + 1)) ℝ :=
  Matrix.updateColumn A 0 (normalize_col (col A 0))

/-- `qr_decomposition(A)` from the notebook, for a square matrix of positive
size: copy `A` into `Q`, normalize column `0`, orthogonalize-and-normalize
columns `1, …, m` in increasing order, and return `(Q, Qᵀ @ A)`. -/
noncomputable def qr_decomposition {m : ℕ} (A : Matrix (Fin (m + 1)) (Fin (m + 1)) ℝ) :
    Matrix (Fin (m + 1)) (Fin (m + 1)) ℝ × Matrix (Fin (m + 1)) (Fin (m + 1)) ℝ :=
  (qr_loop (qr_init A) m, (qr_loop (qr_init A) m).transpose * A)

/-- The error taxonomy of the design spec (§7). -/
inductive QRError where
  | ShapeMismatch : QRError
  | DegenerateInput : QRError
deriving DecidableEq

/-- Modelled from the spec: fail-fast `normalize` (§4.1), filling in the
`pass` body of `normalize_col`.  It fails with a `DegenerateInput` kind when
`‖x‖` is zero, and otherwise returns `normalize_col x`. -/
noncomputable def normalize_col_checked {n : ℕ} (x : Fin n → ℝ) :
    Except QRError (Fin n → ℝ) :=
  if norm_col x = 0 then .error .DegenerateInput else .ok (normalize_col x)

/-- Modelled from the spec: one fail-fast loop iteration of `decompose`,
propagating the `DegenerateInput` failure of `normalize_col_checked`. -/
noncomputable def qr_step_checked {m : ℕ} (Q : Matrix (Fin m) (Fin m) ℝ) (i : Fin m) :
    Except QRError (Matrix (Fin m) (Fin m) ℝ) :=
  (normalize_col_checked (col (orthogonalize Q i) i)).map
    (Matrix.updateColumn (orthogonalize Q i) i)

/-- Modelled from the spec: the fail-fast run of `decompose`'s working-matrix
computation through column `k` (column `0` then loop iterations `1, …, k`). -/
noncomputable def run_checked {m : ℕ} (A : Matrix (Fin (m + 1)) (Fin (m + 1)) ℝ) :
    ℕ → Except QRError (Matrix (Fin (m + 1)) (Fin (m + 1)) ℝ)
  | 0 => (normalize_col_checked (col A 0)).map (Matrix.updateColumn A 0)
  | k + 1 =>
      if h : k + 1 < m + 1 then
        (run_checked A k).bind (fun Q => qr_step_checked Q ⟨k + 1, h⟩)
      else run_checked A k

/-- Modelled from the spec: fail-fast `decompose` on a square matrix of
positive size, surfacing `DegenerateInput` instead of dividing by zero. -/
noncomputable def decompose_square {m : ℕ} (A : Matrix (Fin (m + 1)) (Fin (m + 1)) ℝ) :
    Except QRError
      (Matrix (Fin (m + 1)) (Fin (m + 1)) ℝ × Matrix (Fin (m + 1)) (Fin (m + 1)) ℝ) :=
  (run_checked A m).map (fun Q => (Q, Q.transpose * A))

/-- `decompose` on an arbitrary `m × n` input: the notebook's
`m, n = A.shape; assert m == n` shape guard (a `ShapeMismatch` kind per the
spec's taxonomy) in front of the decomposition; a `0 × 0` input is trivial
(both result matrices are the unique empty matrix). -/
noncomputable def decompose {m n : ℕ} (A : Matrix (Fin m) (Fin n) ℝ) :
    Except QRError (Matrix (Fin m) (Fin n) ℝ × Matrix (Fin n) (Fin n) ℝ) :=
  match m, n, A with
  | 0, 0, A => .ok (A, A)
  | 0, _ + 1, _ => .error .ShapeMismatch
  | _ + 1, 0, _ => .error .ShapeMismatch
  | m' + 1, n' + 1, A =>
      if h : m' = n' then
        (match n', h, A with
          | _, rfl, A => decompose_square A)
      else .error .ShapeMismatch

/-- The mutable state of the notebook's `qr_decomposition`: the caller's
input array `A` and the working array `Q`. -/
structure QRState (m : ℕ) where
  A : Matrix (Fin (m + 1)) (Fin (m + 1)) ℝ
  Q : Matrix (Fin (m + 1)) (Fin (m + 1)) ℝ

/-- The loop of `qr_decomposition` as a state transformer: each iteration
writes only the working matrix `Q`. -/
noncomputable def state_loop {m : ℕ} (s : QRState m) : ℕ → QRState m
  | 0 => s
  | k + 1 =>
      if h : k + 1 < m + 1 then
        { state_loop s k with Q := qr_step (state_loop s k).Q ⟨k + 1, h⟩ }
      else state_loop s k

/-- `Q = np.copy(A)`: the state starts with the working array `Q` an
unaliased copy of the caller's array `A`. -/
def state_init {m : ℕ} (A : Matrix (Fin (m + 1)) (Fin (m + 1)) ℝ) : QRState m :=
  { A := A, Q := A }

/-- `Q[:, 0] = normalize_col(A[:, 0])`: a write to column `0` of `Q` only. -/
noncomputable def state_setcol0 {m : ℕ} (s : QRState m) : QRState m :=
  { s with Q := Matrix.updateColumn s.Q 0 (normalize_col (col s.A 0)) }

/-- `qr_decomposition` with its mutation made explicit: the final state and
the returned pair `(Q, Qᵀ @ A)`, both read off the state. -/
noncomputable def decompose_state {m : ℕ} (A : Matrix (Fin (m + 1)) (Fin (m + 1)) ℝ) :
    QRState m ×
      (Matrix (Fin (m + 1)) (Fin (m + 1)) ℝ × Matrix (Fin (m + 1)) (Fin (m + 1)) ℝ) :=
  (state_loop (state_setcol0 (state_init A)) m,
    ((state_loop (state_setcol0 (state_init A)) m).Q,
      ((state_loop (state_setcol0 (state_init A)) m).Q).transpose *
        (state_loop (state_setcol0 (state_init A)) m).A))

/-- One checked loop iteration as a state transformer whose heap survives
failure: on success only the working matrix `Q` is written; on failure the
state is left exactly as it was (fail-fast: no further writes) and the error
is recorded. -/
noncomputable def state_step_checked {m : ℕ} (s : QRState m) (i : Fin (m + 1)) :
    QRState m × Option QRError :=
  match qr_step_checked s.Q i with
  | .ok Q => ({ s with Q := Q }, none)
  | .error e => (s, some e)

/-- The fail-fast working-matrix computation (column `0` write, then loop
iterations `1, …, k`) as a state transformer: the caller's array `A` is part
of the state and is only ever read, through success and failure alike. -/
noncomputable def state_run_checked {m : ℕ} (s : QRState m) :
    ℕ → QRState m × Option QRError
  | 0 =>
      match normalize_col_checked (col s.A 0) with
      | .ok v => ({ s with Q := Matrix.updateColumn s.Q 0 v }, none)
      | .error e => (s, some e)
  | k + 1 =>
      if h : k + 1 < m + 1 then
        match state_run_checked s k with
        | (s', none) => state_step_checked s' ⟨k + 1, h⟩
        | (s', some e) => (s', some e)
      else state_run_checked s k

/-- The full call on an arbitrary `m × n` input as a state machine: the
shape assert fires before any allocation or write; on the square path the
working copy `Q = np.copy(A)` is created and written in place, through
success and failure alike.  The first component is the caller's array when
the call ends (normally or with an error); the second is the call's
outcome. -/
noncomputable def decompose_state_checked {m n : ℕ} (A : Matrix (Fin m) (Fin n) ℝ) :
    Matrix (Fin m) (Fin n) ℝ ×
      Except QRError (Matrix (Fin m) (Fin n) ℝ × Matrix (Fin n) (Fin n) ℝ) :=
  match m, n, A with
  | 0, 0, A => (A, .ok (A, A))
  | 0, _ + 1, A => (A, .error .ShapeMismatch)
  | _ + 1, 0, A => (A, .error .ShapeMismatch)
  | m' + 1, n' + 1, A =>
      if h : m' = n' then
        (match n', h, A with
          | _, rfl, A =>
              match state_run_checked (state_init A) m' with
              | (s, none) => (s.A, .ok (s.Q, s.Q.transpose * s.A))
              | (s, some e) => (s.A, .error e))
      else (A, .error .ShapeMismatch)

/-- The identity map from plain tuples to Euclidean space, used to relate the
notebook's componentwise formulas to the inner-product-space library. -/
def toE {n : ℕ} (x : Fin n → ℝ) : EuclideanSpace ℝ (Fin n) := x

/-- The columns of `A` viewed as a family of vectors in Euclidean space. -/
def cols {m n : ℕ} (A : Matrix (Fin m) (Fin n) ℝ) : Fin n → EuclideanSpace ℝ (Fin m) :=
  fun j => toE (col A j)

/-- Shortcut instance so that `gramSchmidt` elaborates at index type `Fin n`. -/
instance wellFoundedLT_fin (n : ℕ) : WellFoundedLT (Fin n) := inferInstance

theorem dot_comm {n : ℕ} (a b : Fin n → ℝ) : dot a b = dot b a :=
  Finset.sum_congr rfl (fun _ _ => mul_comm _ _)

theorem dot_self_nonneg {n : ℕ} (x : Fin n → ℝ) : 0 ≤ dot x x :=
  Finset.sum_nonneg (fun _ _ => mul_self_nonneg _)

theorem dot_self_eq_zero_iff {n : ℕ} (x : Fin n → ℝ) : dot x x = 0 ↔ x = 0 := by
  constructor
  · intro h
    funext i
    have h2 := (Finset.sum_eq_zero_iff_of_nonneg
      (fun i _ => mul_self_nonneg (x i))).mp h i (Finset.mem_univ i)
    exact mul_self_eq_zero.mp h2
  · intro h
    subst h
    simp [dot]

theorem dot_scale_left {n : ℕ} (c : ℝ) (x y : Fin n → ℝ) :
    dot (fun i => c * x i) y = c * dot x y := by
  simp [dot, Finset.mul_sum, mul_assoc]

theorem dot_sub_left {n : ℕ} (x y z : Fin n → ℝ) :
    dot (fun i => x i - y i) z = dot x z - dot y z := by
  simp [dot, sub_mul, Finset.sum_sub_distrib]

theorem dot_sum_left {n : ℕ} {α : Type} (s : Finset α) (g : α → (Fin n → ℝ)) (y : Fin n → ℝ) :
    dot (fun r => ∑ j ∈ s, g j r) y = ∑ j ∈ s, dot (g j) y := by
  simp only [dot, Finset.sum_mul]
  rw [Finset.sum_comm]

theorem inner_toE {n : ℕ} (a b : Fin n → ℝ) : ⟪toE a, toE b⟫ = dot a b := by
  simp [toE, dot, PiLp.inner_apply, RCLike.inner_apply, mul_comm]

theorem norm_toE {n : ℕ} (x : Fin n → ℝ) : ‖toE x‖ = norm_col x := by
  rw [norm_col, ← inner_toE, real_inner_self_eq_norm_sq, Real.sqrt_sq (norm_nonneg _)]

theorem norm_col_eq_zero_iff {n : ℕ} (x : Fin n → ℝ) : norm_col x = 0 ↔ x = 0 := by
  rw [norm_col, Real.sqrt_eq_zero (dot_self_nonneg x)]
  exact dot_self_eq_zero_iff x

theorem toE_smul {n : ℕ} (c : ℝ) (x : Fin n → ℝ) : toE (fun i => c * x i) = c • toE x := rfl

theorem toE_sub {n : ℕ} (x y : Fin n → ℝ) : toE (fun i => x i - y i) = toE x - toE y := rfl

theorem toE_sum {n : ℕ} {α : Type} (s : Finset α) (g : α → (Fin n → ℝ)) :
    toE (fun r => ∑ j ∈ s, g j r) = ∑ j ∈ s, toE (g j) := by
  funext r
  have h := Finset.sum_apply r s (fun j => toE (g j))
  rw [show (∑ j ∈ s, toE (g j)) r = ∑ j ∈ s, toE (g j) r from h]
  rfl

theorem toE_normalize {n : ℕ} (x : Fin n → ℝ) :
    toE (normalize_col x) = ‖toE x‖⁻¹ • toE x := by
  rw [norm_toE]
  funext i
  show x i / norm_col x = (norm_col x)⁻¹ * x i
  rw [div_eq_inv_mul]

theorem toE_proj {n : ℕ} (a b : Fin n → ℝ) :
    toE (proj_a2b a b) =
      (orthogonalProjection (ℝ ∙ toE b) (toE a) : EuclideanSpace ℝ (Fin n)) := by
  rw [orthogonalProjection_singleton]
  have h1 : toE (proj_a2b a b) = (dot a b / dot b b) • toE b := rfl
  have h2 : ⟪toE b, toE a⟫ = dot a b := by rw [inner_toE]; exact dot_comm b a
  have h3 : (‖toE b‖ ^ 2 : ℝ) = dot b b := by
    rw [← real_inner_self_eq_norm_sq, inner_toE]
  rw [h1]
  simp only [RCLike.ofReal_real_eq_id, id_eq]
  rw [h2, h3]

theorem span_smul_norm {n : ℕ} (v : EuclideanSpace ℝ (Fin n)) :
    (ℝ ∙ (‖v‖⁻¹ • v)) = ℝ ∙ v := by
  by_cases hv : v = 0
  · subst hv
    simp
  · exact Submodule.span_singleton_smul_eq
      (isUnit_iff_ne_zero.mpr (inv_ne_zero (norm_ne_zero_iff.mpr hv))) v

theorem gramSchmidtNormed_eq {N n : ℕ} (f : Fin (N + 1) → EuclideanSpace ℝ (Fin n))
    (j : Fin (N + 1)) :
    gramSchmidtNormed ℝ f j = ‖gramSchmidt ℝ f j‖⁻¹ • gramSchmidt ℝ f j := by
  simp [gramSchmidtNormed, RCLike.ofReal_real_eq_id]

theorem col_qr_step_ne {m : ℕ} (Q : Matrix (Fin m) (Fin m) ℝ) (i j : Fin m) (h : j ≠ i) :
    col (qr_step Q i) j = col Q j := by
  funext r
  simp [qr_step, col, orthogonalize, Matrix.updateColumn_ne h]

theorem col_qr_loop_untouched {m : ℕ} (Q : Matrix (Fin (m + 1)) (Fin (m + 1)) ℝ) (k : ℕ)
    (j : Fin (m + 1)) (hj : k < j.val) : col (qr_loop Q k) j = col Q j := by
  induction k with
  | zero => rfl
  | succ k ih =>
    have hj' : k < j.val := Nat.lt_of_succ_lt hj
    by_cases h : k + 1 < m + 1
    · simp only [qr_loop, dif_pos h]
      rw [col_qr_step_ne _ _ _ (fun hh => absurd (congrArg Fin.val hh) (Nat.ne_of_gt hj))]
      exact ih hj'
    · simp only [qr_loop, dif_neg h]
      exact ih hj'

theorem col_qr_loop_stable {m : ℕ} (Q : Matrix (Fin (m + 1)) (Fin (m + 1)) ℝ) (k k' : ℕ)
    (hkk : k ≤ k') (j : Fin (m + 1)) (hj : j.val ≤ k) :
    col (qr_loop Q k') j = col (qr_loop Q k) j := by
  induction k' with
  | zero =>
    cases Nat.le_zero.mp hkk
    rfl
  | succ k' ih =>
    rcases Nat.lt_or_ge k (k' + 1) with hlt | hge
    · have hk' : k ≤ k' := Nat.lt_succ_iff.mp hlt
      by_cases h : k' + 1 < m + 1
      · simp only [qr_loop, dif_pos h]
        rw [col_qr_step_ne _ _ _ (by intro hh; have := congrArg Fin.val hh; simp at this; omega)]
        exact ih hk'
      · simp only [qr_loop, dif_neg h]
        exact ih hk'
    · have hk : k = k' + 1 := Nat.le_antisymm hkk hge
      subst hk
      rfl

theorem col_qr_init_zero {m : ℕ} (A : Matrix (Fin (m + 1)) (Fin (m + 1)) ℝ) :
    col (qr_init A) 0 = normalize_col (col A 0) := by
  funext r
  simp [qr_init, col, Matrix.updateColumn_self]

theorem col_qr_init_ne {m : ℕ} (A : Matrix (Fin (m + 1)) (Fin (m + 1)) ℝ) (j : Fin (m + 1))
    (hj : j ≠ 0) : col (qr_init A) j = col A j := by
  funext r
  simp [qr_init, col, Matrix.updateColumn_ne hj]

theorem gramSchmidt_at_zero {m n : ℕ} (f : Fin (m + 1) → EuclideanSpace ℝ (Fin n)) :
    gramSchmidt ℝ f 0 = f 0 := by
  rw [gramSchmidt_def]
  have h : Finset.Iio (0 : Fin (m + 1)) = ∅ := by
    ext x
    simp
  rw [h, Finset.sum_empty, sub_zero]

/-- The vector the loop body normalizes at column `i` is exactly the `i`-th
Gram-Schmidt vector, provided the earlier columns already hold the normalized
Gram-Schmidt vectors and column `i` still holds `A[:, i]`. -/
theorem orth_col_eq_gs {m : ℕ} (A Qk : Matrix (Fin (m + 1)) (Fin (m + 1)) ℝ) (i : Fin (m + 1))
    (hQcols : ∀ j' : Fin (m + 1), j' < i → toE (col Qk j') = gramSchmidtNormed ℝ (cols A) j')
    (hQi : col Qk i = col A i) :
    toE (col (orthogonalize Qk i) i) = gramSchmidt ℝ (cols A) i := by
  have step1 : col (orthogonalize Qk i) i
      = fun r => col A i r
          - (fun r' => ∑ j' ∈ Finset.Iio i, proj_a2b (col A i) (col Qk j') r') r := by
    funext r
    show (orthogonalize Qk i) r i = _
    rw [orthogonalize, Matrix.updateColumn_self]
    rw [hQi]
    have hr : Qk r i = col A i r := congrFun hQi r
    rw [hr]
  rw [step1, toE_sub, toE_sum]
  have hterm : ∀ j' ∈ Finset.Iio i,
      toE (proj_a2b (col A i) (col Qk j'))
        = (orthogonalProjection (ℝ ∙ gramSchmidt ℝ (cols A) j') (cols A i) :
            EuclideanSpace ℝ (Fin (m + 1))) := by
    intro j' hj'
    rw [toE_proj, hQcols j' (Finset.mem_Iio.mp hj')]
    refine eq_orthogonalProjection_of_eq_submodule ?_ _
    rw [gramSchmidtNormed_eq, span_smul_norm]
  rw [Finset.sum_congr rfl hterm]
  exact (gramSchmidt_def ℝ (cols A) i).symm

/-- Columns `0, …, k` of the working matrix after `k` loop iterations are the
normalized Gram-Schmidt vectors of the columns of `A`. -/
theorem qr_loop_col_eq_gsNormed {m : ℕ} (A : Matrix (Fin (m + 1)) (Fin (m + 1)) ℝ) (k : ℕ)
    (hk : k ≤ m) :
    ∀ j : Fin (m + 1), j.val ≤ k →
      toE (col (qr_loop (qr_init A) k) j) = gramSchmidtNormed ℝ (cols A) j := by
  induction k with
  | zero =>
    intro j hj
    have hj0 : j = 0 := Fin.ext (Nat.le_zero.mp hj)
    subst hj0
    show toE (col (qr_init A) 0) = _
    rw [col_qr_init_zero, toE_normalize, gramSchmidtNormed_eq, gramSchmidt_at_zero]
    rfl
  | succ k ih =>
    intro j hj
    have hk' : k ≤ m := Nat.le_of_succ_le hk
    have hlt : k + 1 < m + 1 := Nat.succ_lt_succ (Nat.lt_of_succ_le hk)
    rcases Nat.lt_or_ge j.val (k + 1) with hjk | hjk
    · have hjk' : j.val ≤ k := Nat.lt_succ_iff.mp hjk
      rw [col_qr_loop_stable (qr_init A) k (k + 1) (Nat.le_succ k) j hjk']
      exact ih hk' j hjk'
    · have hji : j = (⟨k + 1, hlt⟩ : Fin (m + 1)) := Fin.ext (Nat.le_antisymm hj hjk)
      subst hji
      simp only [qr_loop, dif_pos hlt]
      have hstep : col (qr_step (qr_loop (qr_init A) k) ⟨k + 1, hlt⟩) ⟨k + 1, hlt⟩
          = normalize_col
              (col (orthogonalize (qr_loop (qr_init A) k) ⟨k + 1, hlt⟩) ⟨k + 1, hlt⟩) := by
        funext r
        simp [qr_step, col, Matrix.updateColumn_self]
      rw [hstep, toE_normalize]
      have horth : toE (col (orthogonalize (qr_loop (qr_init A) k) ⟨k + 1, hlt⟩) ⟨k + 1, hlt⟩)
          = gramSchmidt ℝ (cols A) ⟨k + 1, hlt⟩ := by
        refine orth_col_eq_gs A _ _ (fun j' hj' => ?_) ?_
        · have hj'k : j'.val ≤ k := Nat.lt_succ_iff.mp hj'
          exact ih hk' j' hj'k
        · rw [col_qr_loop_untouched (qr_init A) k ⟨k + 1, hlt⟩ (Nat.lt_succ_self k)]
          refine col_qr_init_ne A _ (fun hh => ?_)
          have := congrArg Fin.val hh
          simp at this
      rw [horth, gramSchmidtNormed_eq]

theorem qr_Q_col {m : ℕ} (A : Matrix (Fin (m + 1)) (Fin (m + 1)) ℝ) (j : Fin (m + 1)) :
    toE (col (qr_decomposition A).1 j) = gramSchmidtNormed ℝ (cols A) j :=
  qr_loop_col_eq_gsNormed A m (Nat.le_refl m) j (Nat.lt_succ_iff.mp j.isLt)

theorem cols_linearIndependent {m : ℕ} (A : Matrix (Fin (m + 1)) (Fin (m + 1)) ℝ)
    (hA : IsUnit A.det) : LinearIndependent ℝ (cols A) := by
  have h : LinearIndependent ℝ (fun i => A.transpose i) :=
    Matrix.linearIndependent_cols_iff_isUnit.mpr ((Matrix.isUnit_iff_isUnit_det A).mpr hA)
  exact h

theorem qr_Q_cols_orthonormal {m : ℕ} (A : Matrix (Fin (m + 1)) (Fin (m + 1)) ℝ)
    (hA : IsUnit A.det) :
    Orthonormal ℝ (fun j => toE (col (qr_decomposition A).1 j)) := by
  have h := gramSchmidt_orthonormal (cols_linearIndependent A hA)
  have he : (fun j => toE (col (qr_decomposition A).1 j)) = gramSchmidtNormed ℝ (cols A) :=
    funext (fun j => qr_Q_col A j)
  rw [he]
  exact h

theorem qr_transpose_mul_self {m : ℕ} (A : Matrix (Fin (m + 1)) (Fin (m + 1)) ℝ)
    (hA : IsUnit A.det) :
    ((qr_decomposition A).1).transpose * (qr_decomposition A).1 = 1 := by
  have horth := orthonormal_iff_ite.mp (qr_Q_cols_orthonormal A hA)
  ext i j
  rw [Matrix.mul_apply, Matrix.one_apply]
  have h1 : ∑ k, ((qr_decomposition A).1).transpose i k * (qr_decomposition A).1 k j
      = dot (col (qr_decomposition A).1 i) (col (qr_decomposition A).1 j) := rfl
  rw [h1, ← inner_toE]
  have := horth i j
  simpa using this

theorem qr_R_lower_zero {m : ℕ} (A : Matrix (Fin (m + 1)) (Fin (m + 1)) ℝ)
    (i j : Fin (m + 1)) (hij : j < i) : (qr_decomposition A).2 i j = 0 := by
  have h1 : (qr_decomposition A).2 i j
      = dot (col (qr_decomposition A).1 i) (col A j) := rfl
  rw [h1, ← inner_toE, qr_Q_col, gramSchmidtNormed_eq]
  rw [real_inner_smul_left]
  have h0 : ⟪gramSchmidt ℝ (cols A) i, cols A j⟫ = 0 :=
    gramSchmidt_inv_triangular ℝ (cols A) hij
  have h2 : (toE (col A j)) = cols A j := rfl
  rw [h2, h0, mul_zero]

/-- The fail-fast run either completes with the same working matrix as the
unchecked loop, all Gram-Schmidt vectors so far being nonzero, or fails with
`DegenerateInput`, some Gram-Schmidt vector so far being zero. -/
theorem run_checked_char {m : ℕ} (A : Matrix (Fin (m + 1)) (Fin (m + 1)) ℝ) (k : ℕ)
    (hk : k ≤ m) :
    (run_checked A k = .ok (qr_loop (qr_init A) k) ∧
      ∀ i : Fin (m + 1), i.val ≤ k → gramSchmidt ℝ (cols A) i ≠ 0) ∨
    (run_checked A k = .error .DegenerateInput ∧
      ∃ i : Fin (m + 1), i.val ≤ k ∧ gramSchmidt ℝ (cols A) i = 0) := by
  induction k with
  | zero =>
    by_cases h0 : norm_col (col A 0) = 0
    · right
      refine ⟨?_, 0, Nat.le_refl 0, ?_⟩
      · show (normalize_col_checked (col A 0)).map (Matrix.updateColumn A 0) = _
        rw [normalize_col_checked, if_pos h0]
        rfl
      · rw [gramSchmidt_at_zero]
        show toE (col A 0) = 0
        rw [norm_col_eq_zero_iff] at h0
        rw [h0]
        rfl
    · left
      refine ⟨?_, ?_⟩
      · show (normalize_col_checked (col A 0)).map (Matrix.updateColumn A 0) = _
        rw [normalize_col_checked, if_neg h0]
        rfl
      · intro i hi
        have hi0 : i = 0 := Fin.ext (Nat.le_zero.mp hi)
        subst hi0
        rw [gramSchmidt_at_zero]
        intro hz
        apply h0
        rw [norm_col_eq_zero_iff]
        exact hz
  | succ k ih =>
    have hk' : k ≤ m := Nat.le_of_succ_le hk
    have hlt : k + 1 < m + 1 := Nat.succ_lt_succ (Nat.lt_of_succ_le hk)
    rcases ih hk' with ⟨hok, hall⟩ | ⟨herr, i, hi, hz⟩
    · have hv : toE (col (orthogonalize (qr_loop (qr_init A) k) ⟨k + 1, hlt⟩) ⟨k + 1, hlt⟩)
          = gramSchmidt ℝ (cols A) ⟨k + 1, hlt⟩ := by
        refine orth_col_eq_gs A _ _ (fun j' hj' => ?_) ?_
        · exact qr_loop_col_eq_gsNormed A k hk' j' (Nat.lt_succ_iff.mp hj')
        · rw [col_qr_loop_untouched (qr_init A) k _ (Nat.lt_succ_self k)]
          refine col_qr_init_ne A _ (fun hh => ?_)
          have := congrArg Fin.val hh
          simp at this
      by_cases hz : gramSchmidt ℝ (cols A) ⟨k + 1, hlt⟩ = 0
      · right
        refine ⟨?_, ⟨k + 1, hlt⟩, Nat.le_refl (k + 1), hz⟩
        have hveq : col (orthogonalize (qr_loop (qr_init A) k) ⟨k + 1, hlt⟩) ⟨k + 1, hlt⟩ = 0 :=
          hv.trans hz
        have hnorm : norm_col
            (col (orthogonalize (qr_loop (qr_init A) k) ⟨k + 1, hlt⟩) ⟨k + 1, hlt⟩) = 0 :=
          (norm_col_eq_zero_iff _).mpr hveq
        show run_checked A (k + 1) = _
        simp only [run_checked, dif_pos hlt]
        rw [hok]
        show qr_step_checked (qr_loop (qr_init A) k) ⟨k + 1, hlt⟩ = _
        simp only [qr_step_checked, normalize_col_checked, if_pos hnorm]
        rfl
      · left
        have hnorm : norm_col
            (col (orthogonalize (qr_loop (qr_init A) k) ⟨k + 1, hlt⟩) ⟨k + 1, hlt⟩) ≠ 0 := by
          intro h0
          rw [norm_col_eq_zero_iff] at h0
          apply hz
          rw [← hv, h0]
          rfl
        refine ⟨?_, ?_⟩
        · simp only [run_checked, dif_pos hlt]
          rw [hok]
          show qr_step_checked (qr_loop (qr_init A) k) ⟨k + 1, hlt⟩ = _
          simp only [qr_step_checked, normalize_col_checked, if_neg hnorm]
          simp only [qr_loop, dif_pos hlt]
          rfl
        · intro i hi
          rcases Nat.lt_or_ge i.val (k + 1) with h1 | h1
          · exact hall i (Nat.lt_succ_iff.mp h1)
          · have hieq : i = ⟨k + 1, hlt⟩ := Fin.ext (Nat.le_antisymm hi h1)
            rw [hieq]
            exact hz
    · right
      refine ⟨?_, i, Nat.le_succ_of_le hi, hz⟩
      simp only [run_checked, dif_pos hlt]
      rw [herr]
      rfl

theorem exists_gs_zero_of_dep {m : ℕ} (A : Matrix (Fin (m + 1)) (Fin (m + 1)) ℝ)
    (hdep : ¬ LinearIndependent ℝ (cols A)) :
    ∃ i : Fin (m + 1), gramSchmidt ℝ (cols A) i = 0 := by
  by_contra hc
  push_neg at hc
  apply hdep
  have hgs : LinearIndependent ℝ (gramSchmidt ℝ (cols A)) :=
    linearIndependent_of_ne_zero_of_inner_eq_zero hc
      (fun i j hij => gramSchmidt_orthogonal ℝ (cols A) hij)
  rw [linearIndependent_iff_card_eq_finrank_span] at hgs ⊢
  rw [hgs]
  simp only [Set.finrank]
  rw [span_gramSchmidt]

theorem decompose_square_error {m : ℕ} (A : Matrix (Fin (m + 1)) (Fin (m + 1)) ℝ)
    (hdep : ¬ LinearIndependent ℝ (cols A)) :
    decompose_square A = .error .DegenerateInput := by
  obtain ⟨i, hi⟩ := exists_gs_zero_of_dep A hdep
  rcases run_checked_char A m (Nat.le_refl m) with ⟨hok, hall⟩ | ⟨herr, hex⟩
  · exact absurd hi (hall i (Nat.lt_succ_iff.mp i.isLt))
  · simp only [decompose_square]
    rw [herr]
    rfl

theorem cols_one_pairwise {m : ℕ} :
    Pairwise fun i j =>
      ⟪cols (1 : Matrix (Fin (m + 1)) (Fin (m + 1)) ℝ) i, cols 1 j⟫ = (0 : ℝ) := by
  intro i j hij
  simp only [cols]
  rw [inner_toE]
  simp [dot, col, Matrix.one_apply, Finset.sum_ite_eq, hij, Ne.symm hij]

theorem norm_cols_one {m : ℕ} (j : Fin (m + 1)) :
    ‖cols (1 : Matrix (Fin (m + 1)) (Fin (m + 1)) ℝ) j‖ = 1 := by
  show ‖toE (col (1 : Matrix (Fin (m + 1)) (Fin (m + 1)) ℝ) j)‖ = 1
  rw [norm_toE, norm_col]
  have h : dot (col (1 : Matrix (Fin (m + 1)) (Fin (m + 1)) ℝ) j)
      (col (1 : Matrix (Fin (m + 1)) (Fin (m + 1)) ℝ) j) = 1 := by
    simp [dot, col, Matrix.one_apply, Finset.sum_ite_eq]
  rw [h, Real.sqrt_one]

theorem decompose_nonsquare {m n : ℕ} (A : Matrix (Fin m) (Fin n) ℝ) (hmn : m ≠ n) :
    decompose A = .error .ShapeMismatch := by
  cases m with
  | zero =>
    cases n with
    | zero => exact absurd rfl hmn
    | succ n' => rfl
  | succ m' =>
    cases n with
    | zero => rfl
    | succ n' =>
      have h : ¬ m' = n' := fun hh => hmn (by rw [hh])
      simp only [decompose]
      rw [dif_neg h]

theorem decompose_square_case {m : ℕ} (A : Matrix (Fin (m + 1)) (Fin (m + 1)) ℝ) :
    decompose A = decompose_square A := by
  simp only [decompose]
  simp

theorem state_loop_A {m : ℕ} (s : QRState m) (k : ℕ) : (state_loop s k).A = s.A := by
  induction k with
  | zero => rfl
  | succ k ih =>
    by_cases h : k + 1 < m + 1
    · simp only [state_loop, dif_pos h]
      exact ih
    · simp only [state_loop, dif_neg h]
      exact ih

theorem state_loop_Q {m : ℕ} (s : QRState m) (k : ℕ) : (state_loop s k).Q = qr_loop s.Q k := by
  induction k with
  | zero => rfl
  | succ k ih =>
    by_cases h : k + 1 < m + 1
    · simp only [state_loop, qr_loop, dif_pos h]
      rw [ih]
    · simp only [state_loop, qr_loop, dif_neg h]
      exact ih

/-- Claim C1: for every square invertible matrix `A` (in exact arithmetic),
`qr_decomposition A` returns a pair `(Q, R)` with `Q * R = A`. -/
theorem claim_C1_qr_reconstructs {m : ℕ} (A : Matrix (Fin (m + 1)) (Fin (m + 1)) ℝ)
    (hA : IsUnit A.det) :
    (qr_decomposition A).1 * (qr_decomposition A).2 = A := by
  have h2 : (qr_decomposition A).1 * ((qr_decomposition A).1).transpose = 1 :=
    Matrix.mul_eq_one_comm.mp (qr_transpose_mul_self A hA)
  show (qr_decomposition A).1 * (((qr_decomposition A).1).transpose * A) = A
  rw [← Matrix.mul_assoc, h2, Matrix.one_mul]

/-- Witness for C1 at the invertible input `A = 1` of size `1 × 1`. -/
theorem claim_C1_witness :
    (qr_decomposition (1 : Matrix (Fin 1) (Fin 1) ℝ)).1 *
      (qr_decomposition (1 : Matrix (Fin 1) (Fin 1) ℝ)).2 = 1 :=
  claim_C1_qr_reconstructs 1 (by simp)

/-- Claim C2: for every square invertible matrix `A` (in exact arithmetic),
the `Q` returned by `qr_decomposition A` is orthonormal: `Qᵀ * Q = 1`. -/
theorem claim_C2_Q_orthonormal {m : ℕ} (A : Matrix (Fin (m + 1)) (Fin (m + 1)) ℝ)
    (hA : IsUnit A.det) :
    ((qr_decomposition A).1).transpose * (qr_decomposition A).1 = 1 :=
  qr_transpose_mul_self A hA

/-- Witness for C2 at the invertible input `A = 1` of size `2 × 2`. -/
theorem claim_C2_witness :
    ((qr_decomposition (1 : Matrix (Fin 2) (Fin 2) ℝ)).1).transpose *
      (qr_decomposition (1 : Matrix (Fin 2) (Fin 2) ℝ)).1 = 1 :=
  claim_C2_Q_orthonormal 1 (by simp)

/-- Claim C3: for every square invertible matrix `A` (in exact arithmetic),
the `R = Qᵀ * A` returned by `qr_decomposition A` is upper-triangular: every
entry strictly below the main diagonal is zero. -/
theorem claim_C3_R_upper_triangular {m : ℕ} (A : Matrix (Fin (m + 1)) (Fin (m + 1)) ℝ)
    (hA : IsUnit A.det) (i j : Fin (m + 1)) (hij : j < i) :
    (qr_decomposition A).2 i j = 0 :=
  qr_R_lower_zero A i j hij

/-- Witness for C3 at `A = 1` of size `2 × 2` and the below-diagonal entry
`(1, 0)`. -/
theorem claim_C3_witness :
    (qr_decomposition (1 : Matrix (Fin 2) (Fin 2) ℝ)).2 1 0 = 0 :=
  claim_C3_R_upper_triangular 1 (by simp) 1 0 (by decide)

/-- Claim C4: for every non-square input matrix, `decompose` fails with a
`ShapeMismatch`-kind error instead of returning a result. -/
theorem claim_C4_shape_mismatch {m n : ℕ} (A : Matrix (Fin m) (Fin n) ℝ) (hmn : m ≠ n) :
    decompose A = .error .ShapeMismatch :=
  decompose_nonsquare A hmn

/-- Witness for C4 at the `1 × 2` zero matrix. -/
theorem claim_C4_witness :
    decompose (0 : Matrix (Fin 1) (Fin 2) ℝ) = .error .ShapeMismatch :=
  claim_C4_shape_mismatch 0 (by decide)

/-- Claim C5: for every rank-deficient square input matrix (linearly
dependent columns), `decompose` fails with a `DegenerateInput`-kind error;
and `normalize_col_checked` fails with a `DegenerateInput` kind whenever its
argument has Euclidean norm zero. -/
theorem claim_C5_degenerate_input :
    (∀ (m : ℕ) (A : Matrix (Fin (m + 1)) (Fin (m + 1)) ℝ),
        ¬ LinearIndependent ℝ (fun j => col A j) →
          decompose A = .error .DegenerateInput) ∧
    (∀ (n : ℕ) (x : Fin n → ℝ), norm_col x = 0 →
        normalize_col_checked x = .error .DegenerateInput) := by
  constructor
  · intro m A hdep
    rw [decompose_square_case]
    exact decompose_square_error A (fun h => hdep h)
  · intro n x hx
    rw [normalize_col_checked, if_pos hx]

/-- Witness for C5 at the rank-deficient `2 × 2` all-ones matrix. -/
theorem claim_C5_witness :
    decompose (Matrix.of ![![(1 : ℝ), 1], ![1, 1]]) = .error .DegenerateInput := by
  refine claim_C5_degenerate_input.1 1 (Matrix.of ![![(1 : ℝ), 1], ![1, 1]]) ?_
  intro h
  have h01 : (0 : Fin 2) = 1 := by
    apply h.injective
    funext r
    fin_cases r <;> simp [col]
  exact absurd h01 (by decide)

/-- Claim C6: for every nonzero vector `x`, `normalize_col x` is `x` divided
elementwise by its Euclidean norm `sqrt (Σ xᵢ²)`, and the result has unit
Euclidean norm. -/
theorem claim_C6_normalize {n : ℕ} (x : Fin n → ℝ) (hx : x ≠ 0) :
    normalize_col x = (fun i => x i / Real.sqrt (∑ j, x j ^ 2)) ∧
      norm_col (normalize_col x) = 1 := by
  constructor
  · funext i
    rw [normalize_col, norm_col]
    have h : dot x x = ∑ j, x j ^ 2 := by
      simp [dot, sq]
    rw [h]
  · rw [← norm_toE, toE_normalize, norm_smul, norm_inv, norm_norm]
    have h0 : ‖toE x‖ ≠ 0 := norm_ne_zero_iff.mpr (fun h => hx h)
    exact inv_mul_cancel₀ h0

/-- Witness for C6 at the nonzero vector `(3, 4)`. -/
theorem claim_C6_witness :
    norm_col (normalize_col (![3, 4] : Fin 2 → ℝ)) = 1 := by
  refine (claim_C6_normalize ![3, 4] ?_).2
  intro h
  have h0 := congrFun h 0
  simp at h0

/-- Claim C7: for equal-length vectors `a`, `b` with `b` nonzero,
`proj_a2b a b` is `(⟨a,b⟩ / ⟨b,b⟩) · b`, and `a - proj_a2b a b` is orthogonal
to `b` in exact arithmetic. -/
theorem claim_C7_projection {n : ℕ} (a b : Fin n → ℝ) (hb : b ≠ 0) :
    proj_a2b a b = (fun i => (dot a b / dot b b) * b i) ∧
      dot (fun i => a i - proj_a2b a b i) b = 0 := by
  refine ⟨rfl, ?_⟩
  rw [dot_sub_left]
  have hbb : dot b b ≠ 0 := fun h => hb ((dot_self_eq_zero_iff b).mp h)
  have hp : dot (proj_a2b a b) b = dot a b := by
    show dot (fun i => (dot a b / dot b b) * b i) b = dot a b
    rw [dot_scale_left, div_mul_cancel₀ _ hbb]
  rw [hp, sub_self]

/-- Witness for C7 at `a = (1, 1)`, `b = (2, 0)`. -/
theorem claim_C7_witness :
    dot (fun i => (![1, 1] : Fin 2 → ℝ) i - proj_a2b ![1, 1] ![2, 0] i) ![2, 0] = 0 := by
  refine (claim_C7_projection ![1, 1] ![2, 0] ?_).2
  intro h
  have h0 := congrFun h 0
  simp at h0

/-- Claim C8: if columns `0, …, n-1` of `U` are mutually orthogonal and
nonzero, `orthogonalize U n` replaces column `n` by column `n` minus the sum
of its projections onto columns `0, …, n-1`; afterwards column `n` is
orthogonal in exact arithmetic to each of columns `0, …, n-1`, and columns
`0, …, n-1` themselves are unchanged. -/
theorem claim_C8_orthogonalize {m : ℕ} (U : Matrix (Fin m) (Fin m) ℝ) (n : Fin m)
    (horth : ∀ j j' : Fin m, j < n → j' < n → j ≠ j' → dot (col U j) (col U j') = 0)
    (hnz : ∀ j : Fin m, j < n → col U j ≠ 0) :
    (col (orthogonalize U n) n
        = fun i => U i n - ∑ j ∈ Finset.Iio n, proj_a2b (col U n) (col U j) i) ∧
    (∀ j : Fin m, j < n → dot (col (orthogonalize U n) n) (col (orthogonalize U n) j) = 0) ∧
    (∀ j : Fin m, j < n → col (orthogonalize U n) j = col U j) := by
  have hunch : ∀ j : Fin m, j ≠ n → col (orthogonalize U n) j = col U j := by
    intro j hj
    funext r
    simp [orthogonalize, col, Matrix.updateColumn_ne hj]
  have hw : col (orthogonalize U n) n
      = fun i => col U n i - ∑ j ∈ Finset.Iio n, proj_a2b (col U n) (col U j) i := by
    funext i
    show (Matrix.updateColumn U n _) i n = _
    rw [Matrix.updateColumn_self]
    rfl
  refine ⟨hw, ?_, fun j hj => hunch j (Fin.ne_of_lt hj)⟩
  intro j hj
  rw [hunch j (Fin.ne_of_lt hj), hw, dot_sub_left, dot_sum_left]
  rw [Finset.sum_eq_single_of_mem j (Finset.mem_Iio.mpr hj) ?_]
  · have hd : dot (col U j) (col U j) ≠ 0 := fun h => hnz j hj ((dot_self_eq_zero_iff _).mp h)
    show dot (col U n) (col U j)
        - dot (fun i => (dot (col U n) (col U j) / dot (col U j) (col U j)) * col U j i)
            (col U j) = 0
    rw [dot_scale_left, div_mul_cancel₀ _ hd, sub_self]
  · intro j' hj' hne
    show dot (fun i => (dot (col U n) (col U j') / dot (col U j') (col U j')) * col U j' i)
        (col U j) = 0
    rw [dot_scale_left, horth j' j (Finset.mem_Iio.mp hj') hj hne, mul_zero]

/-- Witness for C8 at `U = [[1,1],[0,1]]`, `n = 1`. -/
theorem claim_C8_witness :
    dot (col (orthogonalize (Matrix.of ![![(1 : ℝ), 1], ![0, 1]]) 1) 1)
      (col (orthogonalize (Matrix.of ![![(1 : ℝ), 1], ![0, 1]]) 1) 0) = 0 := by
  refine (claim_C8_orthogonalize (Matrix.of ![![(1 : ℝ), 1], ![0, 1]]) 1 ?_ ?_).2.1 0 (by decide)
  · intro j j' hj hj' hne
    rw [Fin.lt_one_iff] at hj hj'
    subst hj
    subst hj'
    exact absurd rfl hne
  · intro j hj
    rw [Fin.lt_one_iff] at hj
    subst hj
    intro h
    have h0 := congrFun h 0
    simp [col] at h0

/-- Claim C9: for every identity matrix (of positive size, the domain of the
driver), `qr_decomposition` returns `Q = 1` and `R = 1`. -/
theorem claim_C9_identity_fixed_point {m : ℕ} :
    qr_decomposition (1 : Matrix (Fin (m + 1)) (Fin (m + 1)) ℝ) = (1, 1) := by
  have hQ : (qr_decomposition (1 : Matrix (Fin (m + 1)) (Fin (m + 1)) ℝ)).1 = 1 := by
    ext r c
    have h := qr_Q_col (1 : Matrix (Fin (m + 1)) (Fin (m + 1)) ℝ) c
    rw [gramSchmidtNormed_eq, gramSchmidt_of_orthogonal ℝ cols_one_pairwise,
      norm_cols_one, inv_one, one_smul] at h
    exact congrFun h r
  have hR : (qr_decomposition (1 : Matrix (Fin (m + 1)) (Fin (m + 1)) ℝ)).2 = 1 := by
    show ((qr_decomposition (1 : Matrix (Fin (m + 1)) (Fin (m + 1)) ℝ)).1).transpose * 1 = 1
    rw [Matrix.mul_one, hQ, Matrix.transpose_one]
  exact Prod.ext hQ hR

/-- The fail-fast state run never writes the caller's array component. -/
theorem state_run_checked_A {m : ℕ} (s : QRState m) (k : ℕ) :
    (state_run_checked s k).1.A = s.A := by
  induction k with
  | zero =>
    show (match normalize_col_checked (col s.A 0) with
      | .ok v => ({ s with Q := Matrix.updateColumn s.Q 0 v }, none)
      | .error e => (s, some e)).1.A = s.A
    cases normalize_col_checked (col s.A 0) <;> rfl
  | succ k ih =>
    by_cases h : k + 1 < m + 1
    · simp only [state_run_checked, dif_pos h]
      rcases hsr : state_run_checked s k with ⟨s', e⟩
      rw [hsr] at ih
      cases e with
      | none =>
        show (state_step_checked s' ⟨k + 1, h⟩).1.A = s.A
        show (match qr_step_checked s'.Q ⟨k + 1, h⟩ with
          | .ok Q => ({ s' with Q := Q }, none)
          | .error e => (s', some e)).1.A = s.A
        cases qr_step_checked s'.Q ⟨k + 1, h⟩ <;> simpa using ih
      | some e =>
        simpa using ih
    · simp only [state_run_checked, dif_neg h]
      exact ih

/-- The fail-fast state run refines `run_checked`: on success the working
matrix agrees and no error is recorded; on failure the same error is
recorded. -/
theorem state_run_checked_eq {m : ℕ} (A : Matrix (Fin (m + 1)) (Fin (m + 1)) ℝ) (k : ℕ) :
    (∃ Q, run_checked A k = .ok Q ∧
        state_run_checked (state_init A) k = ({ A := A, Q := Q }, none)) ∨
    (∃ e s, run_checked A k = .error e ∧
        state_run_checked (state_init A) k = (s, some e)) := by
  induction k with
  | zero =>
    cases hnc : normalize_col_checked (col A 0) with
    | error e =>
      right
      refine ⟨e, state_init A, ?_, ?_⟩
      · show (normalize_col_checked (col A 0)).map (Matrix.updateColumn A 0) = _
        rw [hnc]
        rfl
      · show (match normalize_col_checked (col A 0) with
          | .ok v => ({ state_init A with Q := Matrix.updateColumn (state_init A).Q 0 v }, none)
          | .error e => (state_init A, some e)) = _
        rw [hnc]
    | ok v =>
      left
      refine ⟨Matrix.updateColumn A 0 v, ?_, ?_⟩
      · show (normalize_col_checked (col A 0)).map (Matrix.updateColumn A 0) = _
        rw [hnc]
        rfl
      · show (match normalize_col_checked (col A 0) with
          | .ok v => ({ state_init A with Q := Matrix.updateColumn (state_init A).Q 0 v }, none)
          | .error e => (state_init A, some e)) = _
        rw [hnc]
        rfl
  | succ k ih =>
    by_cases h : k + 1 < m + 1
    · simp only [run_checked, state_run_checked, dif_pos h]
      rcases ih with ⟨Q, hr, hs⟩ | ⟨e, s, hr, hs⟩
      · rw [hr, hs]
        cases hstep : qr_step_checked Q ⟨k + 1, h⟩ with
        | ok Q' =>
          left
          refine ⟨Q', ?_, ?_⟩
          · show qr_step_checked Q ⟨k + 1, h⟩ = _
            rw [hstep]
          · show state_step_checked { A := A, Q := Q } ⟨k + 1, h⟩ = _
            show (match qr_step_checked Q ⟨k + 1, h⟩ with
              | .ok Q2 => (({ A := A, Q := Q2 } : QRState m), none)
              | .error e => (({ A := A, Q := Q } : QRState m), some e)) = _
            rw [hstep]
        | error e =>
          right
          refine ⟨e, { A := A, Q := Q }, ?_, ?_⟩
          · show qr_step_checked Q ⟨k + 1, h⟩ = _
            rw [hstep]
          · show state_step_checked { A := A, Q := Q } ⟨k + 1, h⟩ = _
            show (match qr_step_checked Q ⟨k + 1, h⟩ with
              | .ok Q2 => (({ A := A, Q := Q2 } : QRState m), none)
              | .error e => (({ A := A, Q := Q } : QRState m), some e)) = _
            rw [hstep]
      · rw [hr, hs]
        right
        exact ⟨e, s, rfl, rfl⟩
    · simp only [run_checked, state_run_checked, dif_neg h]
      exact ih

/-- On a square positive-size input the state machine reduces to the run on
the copied state. -/
theorem decompose_state_checked_square {m : ℕ} (A : Matrix (Fin (m + 1)) (Fin (m + 1)) ℝ) :
    decompose_state_checked A =
      (match state_run_checked (state_init A) m with
        | (s, none) => (s.A, .ok (s.Q, s.Q.transpose * s.A))
        | (s, some e) => (s.A, .error e)) := by
  simp only [decompose_state_checked]
  simp

/-- The caller's array is unchanged by the full checked call, on every shape
and on the success and failure paths alike. -/
theorem decompose_state_checked_fst {m n : ℕ} (A : Matrix (Fin m) (Fin n) ℝ) :
    (decompose_state_checked A).1 = A := by
  cases m with
  | zero =>
    cases n with
    | zero => rfl
    | succ n' => rfl
  | succ m' =>
    cases n with
    | zero => rfl
    | succ n' =>
      by_cases h : m' = n'
      · subst h
        rw [decompose_state_checked_square]
        rcases hsr : state_run_checked (state_init A) m' with ⟨s, e⟩
        have hA : s.A = A := by
          have h2 := state_run_checked_A (state_init A) m'
          rw [hsr] at h2
          exact h2
        cases e with
        | none => exact hA
        | some e => exact hA
      · simp only [decompose_state_checked]
        rw [dif_neg h]

/-- The checked state machine returns exactly the functional `decompose`
outcome: the results are fresh matrices computed from the working copy, not
views of the argument. -/
theorem decompose_state_checked_snd {m n : ℕ} (A : Matrix (Fin m) (Fin n) ℝ) :
    (decompose_state_checked A).2 = decompose A := by
  cases m with
  | zero =>
    cases n with
    | zero => rfl
    | succ n' => rfl
  | succ m' =>
    cases n with
    | zero => rfl
    | succ n' =>
      by_cases h : m' = n'
      · subst h
        rw [decompose_state_checked_square, decompose_square_case]
        rcases state_run_checked_eq A m' with ⟨Q, hr, hs⟩ | ⟨e, s, hr, hs⟩
        · rw [hs]
          show Except.ok (Q, Q.transpose * A) = decompose_square A
          simp only [decompose_square]
          rw [hr]
          rfl
        · rw [hs]
          show Except.error e = decompose_square A
          simp only [decompose_square]
          rw [hr]
          rfl
      · simp only [decompose_state_checked]
        rw [dif_neg h]
        exact (decompose_nonsquare A (fun hh => h (Nat.succ_injective hh))).symm

/-- The unchecked square driver in state form: the caller's array survives
and the returned pair is the pure `qr_decomposition`. -/
theorem decompose_state_spec {m : ℕ} (A : Matrix (Fin (m + 1)) (Fin (m + 1)) ℝ) :
    (decompose_state A).1.A = A ∧ (decompose_state A).2 = qr_decomposition A := by
  have hA : (state_loop (state_setcol0 (state_init A)) m).A = A := by
    rw [state_loop_A]
    rfl
  have hQ : (state_loop (state_setcol0 (state_init A)) m).Q = qr_loop (qr_init A) m := by
    rw [state_loop_Q]
    rfl
  refine ⟨hA, ?_⟩
  show ((state_loop (state_setcol0 (state_init A)) m).Q,
      ((state_loop (state_setcol0 (state_init A)) m).Q).transpose *
        (state_loop (state_setcol0 (state_init A)) m).A) = _
  rw [hQ, hA]
  rfl

/-- Claim C10: for every input matrix, square or not, and whether the call
succeeds or fails, the call leaves the caller's matrix unchanged: in the
explicit state machine (shape assert first, then working copy
`Q = np.copy(A)` with all writes going to `Q`) the caller's array component
of the final state is the input and the outcome is the functional
`decompose` value, i.e. new matrices; likewise for the unchecked square
driver, whose state run returns the input array and the pure
`qr_decomposition` pair. -/
theorem claim_C10_input_unchanged :
    (∀ (m n : ℕ) (A : Matrix (Fin m) (Fin n) ℝ),
        (decompose_state_checked A).1 = A ∧
          (decompose_state_checked A).2 = decompose A) ∧
    (∀ (m : ℕ) (B : Matrix (Fin (m + 1)) (Fin (m + 1)) ℝ),
        (decompose_state B).1.A = B ∧ (decompose_state B).2 = qr_decomposition B) :=
  ⟨fun _ _ A => ⟨decompose_state_checked_fst A, decompose_state_checked_snd A⟩,
    fun _ B => decompose_state_spec B⟩

end HW1
